import Mathlib

/-!
Shallow embedding of the write-buffering core of slayerfs
(`src/project/slayerfs/src/vfs/cache/page.rs`): the `Page` two-state buffer,
the per-chunk `CacheSlice` write buffer (append / overwrite / freeze /
release / collect), and the spec-modelled Block Store read strategy.

Machine integers (`u64`/`usize`) are modelled as `Nat`; the one place the
source relies on saturating `u64` arithmetic (`can_write_at`,
`release_block`) is modelled explicitly.  Byte contents are modelled as
`Nat` values; no arithmetic is ever performed on them.

Rust indexing `self.pages[flat_idx]` panics when out of range; the model
uses `List.getD`/`List.set`, which are total, and every theorem below only
exercises executions whose accesses are proved in range.
-/

/-- decidable equality for `Except`, used to evaluate concrete error results -/
instance {ε α : Type} [DecidableEq ε] [DecidableEq α] : DecidableEq (Except ε α) := fun a b =>
  match a, b with
  | .ok x, .ok y =>
    if h : x = y then isTrue (by rw [h]) else isFalse (by intro hc; cases hc; exact h rfl)
  | .error e, .error f =>
    if h : e = f then isTrue (by rw [h]) else isFalse (by intro hc; cases hc; exact h rfl)
  | .ok _, .error _ => isFalse (by intro hc; cases hc)
  | .error _, .ok _ => isFalse (by intro hc; cases hc)

namespace Slayerfs

/-- a byte value (the source stores `u8`; no arithmetic is done on bytes) -/
abbrev Byte := Nat

/-- `Nat.div_ceil` as used by the source (`a.div_ceil(b)`); `b = 0` panics in
Rust and is excluded by hypotheses wherever it matters. -/
def divCeil (a b : Nat) : Nat := (a + b - 1) / b

/-- `u64::MAX` -/
def u64MAX : Nat := 2 ^ 64 - 1

/-- `u64::saturating_add` -/
def satAdd64 (a b : Nat) : Nat := min (a + b) u64MAX

/-- `PageBuf`: `Mutable(BytesMut)` or `Frozen(Bytes)` -/
inductive PageBuf where
  | Mutable (buf : List Byte)
  | Frozen (buf : List Byte)
deriving DecidableEq

/-- `Page { data: PageBuf }` -/
structure Page where
  data : PageBuf
deriving DecidableEq

/-- `Page::new(size)`: zero-initialized mutable buffer of exactly `size` bytes -/
def Page.new (size : Nat) : Page := ⟨.Mutable (List.replicate size 0)⟩

/-- `Page::write_slice(start, end)`: the window `&mut buf[start..end]` of the
mutable buffer, or the frozen-write error. -/
def Page.write_slice (p : Page) (start stop : Nat) : Except String (List Byte) :=
  match p.data with
  | .Mutable buf => .ok ((buf.take stop).drop start)
  | .Frozen _ => .error "attempt to write to frozen page"

/-- `Page::freeze()`: `Mutable -> Frozen`, idempotent -/
def Page.freeze (p : Page) : Page :=
  match p.data with
  | .Mutable buf => ⟨.Frozen buf⟩
  | .Frozen _ => p

/-- `Page::bytes()`: the frozen snapshot, or the read-before-freeze error -/
def Page.bytes (p : Page) : Except String (List Byte) :=
  match p.data with
  | .Frozen buf => .ok buf
  | .Mutable _ => .error "collect_pages called on mutable page (would read uninitialized bytes)"

/-- spec-side view: is the page in the `Frozen` state? -/
def Page.isFrozen (p : Page) : Bool :=
  match p.data with
  | .Frozen _ => true
  | .Mutable _ => false

/-- spec-side view: the underlying buffer in either state -/
def Page.rawBuf (p : Page) : List Byte :=
  match p.data with
  | .Mutable buf => buf
  | .Frozen buf => buf

/-- the layout/write configuration consumed by `CacheSlice::new`
(`WriteConfig { layout: ChunkLayout { chunk_size, block_size }, page_size }`) -/
structure WriteConfig where
  chunk_size : Nat
  block_size : Nat
  page_size : Nat
deriving DecidableEq

/-- `WriteAction` -/
inductive WriteAction where
  | Overlap
  | Append
deriving DecidableEq

/-- `CacheSlice`: the per-chunk write buffer with a flat `Vec<Option<Page>>` -/
structure CacheSlice where
  config : WriteConfig
  len : Nat
  alloc_bytes : Nat
  pages : List (Option Page)
deriving DecidableEq

/-- `CacheSliceStats` -/
structure CacheSliceStats where
  len : Nat
  alloc_bytes : Nat
  pages_total : Nat
  pages_used : Nat
deriving DecidableEq

namespace CacheSlice

/-- `CacheSlice::new`: `blocks * pages_per_block` empty slots.  The Rust
constructor additionally asserts `block_size % page_size == 0` (and panics on
division by zero), which theorems carry as hypotheses. -/
def new (config : WriteConfig) : CacheSlice :=
  let blocks := divCeil config.chunk_size config.block_size
  let pages_per_block := divCeil config.block_size config.page_size
  { config := config, len := 0, alloc_bytes := 0,
    pages := List.replicate (blocks * pages_per_block) none }

/-- `CacheSlice::pages_per_block` -/
def pages_per_block (s : CacheSlice) : Nat :=
  divCeil s.config.block_size s.config.page_size

/-- `CacheSlice::flat_index` -/
def flat_index (block_idx page_idx ppb : Nat) : Nat := block_idx * ppb + page_idx

/-- `CacheSlice::can_append`: `self.len == offset` -/
def can_append (s : CacheSlice) (offset : Nat) : Bool := s.len == offset

/-- `CacheSlice::can_write_at`: `offset.saturating_add(len) <= self.len` -/
def can_write_at (s : CacheSlice) (offset len : Nat) : Bool :=
  satAdd64 offset len ≤ s.len

/-- `CacheSlice::can_write` -/
def can_write (s : CacheSlice) (offset len : Nat) : Option WriteAction :=
  if s.can_append offset then some .Append
  else if s.can_write_at offset len then some .Overlap
  else none

/-- `CacheSlice::ensure_page_mut_by_flat`: materialize slot `flat` if empty,
bumping `alloc_bytes` (Rust panics when `flat` is out of range; the model
leaves the state unchanged there, and all claims stay in range). -/
def ensure_page_mut_by_flat (s : CacheSlice) (flat ps : Nat) : CacheSlice :=
  if flat < s.pages.length then
    match s.pages.getD flat none with
    | none => { s with pages := s.pages.set flat (some (Page.new ps)),
                       alloc_bytes := s.alloc_bytes + ps }
    | some _ => s
  else s

/-- `CacheSlice::next_write_slot_flat`: `(flat index, offset within page)` of
the byte at position `len`. -/
def next_write_slot_flat (s : CacheSlice) : Nat × Nat :=
  let ps := s.config.page_size
  let bs := s.config.block_size
  let block_index := s.len / bs
  let within_block := s.len % bs
  (block_index * s.pages_per_block + within_block / ps, within_block % ps)

/-- the loop body of `CacheSlice::append`: repeatedly locate the next write
slot, materialize the page, copy `min(page_size - within_page, rest.length)`
bytes through the writable window, and advance `len`.  The Rust loop
terminates because each iteration consumes at least one byte; `fuel`
(initialized to the buffer length) makes that structural, and the
fuel-exhausted branch is unreachable. -/
def appendLoop (s : CacheSlice) (rest : List Byte) (fuel : Nat) : CacheSlice × Bool :=
  if rest.length = 0 then (s, true)
  else
    match fuel with
    | 0 => (s, false)
    | fuel' + 1 =>
      let ps := s.config.page_size
      let slot := s.next_write_slot_flat
      let s1 := s.ensure_page_mut_by_flat slot.1 ps
      match s1.pages.getD slot.1 none with
      | some page =>
        match page.data with
        | .Frozen _ => (s1, false)
        | .Mutable buf =>
          let read := min (ps - slot.2) rest.length
          if read = 0 then (s1, true)
          else
            let newbuf := buf.take slot.2 ++ rest.take read ++ buf.drop (slot.2 + read)
            let s2 : CacheSlice :=
              { s1 with pages := s1.pages.set slot.1 (some ⟨.Mutable newbuf⟩),
                        len := s1.len + read }
            s2.appendLoop (rest.drop read) fuel'
      | none => (s1, false)

/-- `CacheSlice::append`: guard `len + buf.len() <= chunk_size` first
(`ChunkOverflow`), then run the copy loop.  The second component is `true`
exactly when the call returns `Ok`. -/
def append (s : CacheSlice) (buf : List Byte) : CacheSlice × Bool :=
  if s.len + buf.length ≤ s.config.chunk_size then s.appendLoop buf buf.length
  else (s, false)

/-- sequence several `append` calls, stopping at the first failure -/
def appendAll (s : CacheSlice) : List (List Byte) → CacheSlice × Bool
  | [] => (s, true)
  | b :: rest =>
    let r := s.append b
    if r.2 then r.1.appendAll rest else (r.1, false)

end CacheSlice

/-- one step of the span splitter: emit `(child_index, child_offset, len)`
for the range `[offset, stop)` clipped at `child`-sized boundaries.  `fuel`
makes the recursion structural; each step consumes at least one byte. -/
def splitSpansGo (child : Nat) : Nat → Nat → Nat → List (Nat × Nat × Nat)
  | _, _, 0 => []
  | offset, stop, fuel + 1 =>
    if offset < stop ∧ 0 < child then
      let off := offset % child
      let l := min (child - off) (stop - offset)
      (offset / child, off, l) :: splitSpansGo child (offset + l) stop fuel
    else []

/-- Modelled from the spec: the Span Splitter (`ChunkSpan::split_into`, crate
module `chuck`) is not under `src/`; per spec §4.1 it maps a parent-relative
span `(offset, length)` to the ordered child spans covering it, clipped at
`child`-size boundaries and truncated to the container when the clip flag is
set (`write_at` always passes `true`). -/
def splitSpans (container child offset length : Nat) : List (Nat × Nat × Nat) :=
  splitSpansGo child offset (min (offset + length) container) length

namespace CacheSlice

/-- the loop body of `CacheSlice::write_at`: for each page span, materialize
the page, obtain the writable window (failing on a frozen page) and copy the
next `l` bytes of `data` into it. -/
def writeAtLoop (s : CacheSlice) (spans : List (Nat × Nat × Nat)) (data : List Byte)
    (pos : Nat) : CacheSlice × Bool :=
  match spans with
  | [] => (s, true)
  | (flat, off, l) :: rest =>
    let ps := s.config.page_size
    let s1 := s.ensure_page_mut_by_flat flat ps
    match s1.pages.getD flat none with
    | some page =>
      match page.data with
      | .Frozen _ => (s1, false)
      | .Mutable buf =>
        if pos + l ≤ data.length then
          let newbuf := buf.take off ++ (data.drop pos).take l ++ buf.drop (off + l)
          let s2 : CacheSlice := { s1 with pages := s1.pages.set flat (some ⟨.Mutable newbuf⟩) }
          s2.writeAtLoop rest data (pos + l)
        else (s1, false)
    | none => (s1, false)

/-- `CacheSlice::write_at`: split the chunk-relative range into block spans,
each block span into page spans, and copy through each page's window.  `len`
is never touched. -/
def write_at (s : CacheSlice) (offset : Nat) (data : List Byte) : CacheSlice × Bool :=
  let cs := s.config.chunk_size
  let bs := s.config.block_size
  let ps := s.config.page_size
  let ppb := s.pages_per_block
  let flatSpans :=
    (splitSpans cs bs offset data.length).flatMap fun bspan =>
      (splitSpans bs ps bspan.2.1 bspan.2.2).map fun pspan =>
        (flat_index bspan.1 pspan.1 ppb, pspan.2.1, pspan.2.2)
  s.writeAtLoop flatSpans data 0

/-- `CacheSlice::write`: dispatch on the resolved `WriteAction` -/
def write (s : CacheSlice) (offset : Nat) (buf : List Byte) (action : WriteAction) :
    CacheSlice × Bool :=
  match action with
  | .Append => s.append buf
  | .Overlap => s.write_at offset buf

/-- `CacheSlice::freeze`: freeze every materialized page -/
def freeze (s : CacheSlice) : CacheSlice :=
  { s with pages := s.pages.map (Option.map Page.freeze) }

/-- index-aware in-place map used to model the slice iteration of
`freeze_blocks` -/
def mapIdxGo (f : Nat → Option Page → Option Page) : Nat → List (Option Page) → List (Option Page)
  | _, [] => []
  | i, a :: rest => f i a :: mapIdxGo f (i + 1) rest

/-- `CacheSlice::freeze_blocks(start, end)`: freeze the pages of blocks
`[start, end)` (Rust slices `pages[start*ppb..end*ppb]` and panics when the
range is out of bounds; the model freezes the in-range part). -/
def freeze_blocks (s : CacheSlice) (start stop : Nat) : CacheSlice :=
  let ppb := s.pages_per_block
  let f := fun i p => if start * ppb ≤ i ∧ i < stop * ppb then p.map Page.freeze else p
  { s with pages := mapIdxGo f 0 s.pages }

/-- the inner clearing loop of `release_block`: drop each listed slot that
holds a page, accumulating `page_size` per dropped page. -/
def clearSlots (ps : Nat) : List (Option Page) → List Nat → Nat → List (Option Page) × Nat
  | pages, [], freed => (pages, freed)
  | pages, i :: rest, freed =>
    match pages.getD i none with
    | some _ => clearSlots ps (pages.set i none) rest (freed + ps)
    | none => clearSlots ps pages rest freed

/-- `CacheSlice::release_block(idx)`: clear every page slot of the listed
blocks, `alloc_bytes -= freed` (saturating), return the freed byte count. -/
def release_block (s : CacheSlice) (idx : List Nat) : CacheSlice × Nat :=
  let ps := s.config.page_size
  let ppb := s.pages_per_block
  let slots := idx.flatMap fun b => (List.range ppb).map fun j => b * ppb + j
  let r := clearSlots ps s.pages slots 0
  ({ s with pages := r.1, alloc_bytes := s.alloc_bytes - r.2 }, r.2)

/-- `CacheSlice::release_all` -/
def release_all (s : CacheSlice) : CacheSlice × Nat :=
  ({ s with pages := s.pages.map fun _ => none, alloc_bytes := 0 }, s.alloc_bytes)

/-- count of materialized (`Some`) page slots -/
def countSome (l : List (Option Page)) : Nat := (l.filter fun o => o.isSome).length

/-- `CacheSlice::stats` -/
def stats (s : CacheSlice) : CacheSliceStats :=
  { len := s.len, alloc_bytes := s.alloc_bytes,
    pages_total := s.pages.length, pages_used := countSome s.pages }

/-- `CacheSlice::page(block_idx, page_idx)`: checked lookup -/
def page (s : CacheSlice) (block_idx page_idx : Nat) : Option Page :=
  let flat := flat_index block_idx page_idx s.pages_per_block
  if flat < s.pages.length then s.pages.getD flat none else none

end CacheSlice

/-- Modelled from the spec: `make_zero_bytes` (crate module `utils::zero`) is
not under `src/`; per the spec it lazily yields an all-zero buffer of the
required size, possibly as several chunks (only the concatenation is ever
observed). -/
def make_zero_bytes (n : Nat) : List (List Byte) := [List.replicate n 0]

namespace CacheSlice

/-- the inner page loop of `collect_pages` for one block: walk the page slots,
stop when the remaining logical length is exhausted, emit the frozen page's
first `min(remaining, page_size)` bytes (or a zero buffer for a hole), and
thread the remaining count. -/
def collectBlockGo (s : CacheSlice) (ps flatBase : Nat) :
    List Nat → Nat → Except String (List (List Byte) × Nat)
  | [], r => .ok ([], r)
  | pi :: rest, r =>
    if r = 0 then .ok ([], r)
    else
      let tk := min r ps
      match s.pages.getD (flatBase + pi) none with
      | some page =>
        match page.bytes with
        | .error e => .error e
        | .ok bts =>
          match s.collectBlockGo ps flatBase rest (r - tk) with
          | .error e => .error e
          | .ok (tail, r') => .ok (bts.take tk :: tail, r')
      | none =>
        match s.collectBlockGo ps flatBase rest (r - tk) with
        | .error e => .error e
        | .ok (tail, r') => .ok (make_zero_bytes tk ++ tail, r')

/-- the outer block loop of `collect_pages` -/
def collectGo (s : CacheSlice) (ps ppb : Nat) :
    List Nat → Nat → Except String (List (Nat × List (List Byte)))
  | [], _ => .ok []
  | b :: rest, r =>
    match s.collectBlockGo ps (b * ppb) (List.range ppb) r with
    | .error e => .error e
    | .ok (pgs, r') =>
      match s.collectGo ps ppb rest r' with
      | .error e => .error e
      | .ok tail => .ok ((b, pgs) :: tail)

/-- `CacheSlice::collect_pages(start, end)` -/
def collect_pages (s : CacheSlice) (start stop : Nat) :
    Except String (List (Nat × List (List Byte))) :=
  let ps := s.config.page_size
  let bs := s.config.block_size
  let ppb := s.pages_per_block
  let remaining := s.len - start * bs
  if remaining = 0 then .ok []
  else s.collectGo ps ppb (List.range' start (stop - start)) remaining

end CacheSlice

/-- concatenation of the collected byte chunks in block order -/
def flattenCollect (out : List (Nat × List (List Byte))) : List Byte :=
  (out.map fun bp => bp.2.flatten).flatten

/-- `collect_pages` followed by concatenation in block order -/
def CacheSlice.collectConcat (s : CacheSlice) (start stop : Nat) : Except String (List Byte) :=
  (s.collect_pages start stop).map flattenCollect

/-! ## Block Store read strategy (spec-modelled) -/

/-- Modelled from the spec: `BlockStoreConfig` (crate module `chuck::store`)
is not under `src/`; it carries the block size and the range-read threshold
expressed as a fraction of the block size (modelled as a rational
`num / den` to avoid floating point; the demo uses `0.2 = 1/5`). -/
structure BlockStoreConfig where
  block_size : Nat
  threshold_num : Nat
  threshold_den : Nat

/-- the threshold in bytes: `block_size * fraction` -/
def BlockStoreConfig.threshold_bytes (c : BlockStoreConfig) : Nat :=
  c.block_size * c.threshold_num / c.threshold_den

/-- one downstream call issued by the store against the object backend -/
inductive BackendCall where
  | getRange (key : Nat × Nat) (offset len : Nat)
  | getObject (key : Nat × Nat)
deriving DecidableEq

/-- Modelled from the spec: `ObjectBlockStore::read_range` (crate module
`chuck::store`) is not under `src/`; per spec §4.4 a read at or below the
threshold issues exactly one byte-range fetch for
`[offset, offset + buf.len())`, and a read above it fetches the whole block
object once and slices the requested window locally.  The result is the list
of downstream calls issued together with the bytes placed in the caller's
buffer; `backend` gives each block object's bytes. -/
def read_range (cfg : BlockStoreConfig) (backend : Nat × Nat → List Byte)
    (key : Nat × Nat) (offset bufLen : Nat) : List BackendCall × List Byte :=
  if bufLen ≤ cfg.threshold_bytes then
    ([.getRange key offset bufLen], ((backend key).drop offset).take bufLen)
  else
    ([.getObject key], ((backend key).drop offset).take bufLen)

/-! ## Reachable states (public-operation machine) -/

/-- one public operation of the write buffer -/
inductive Op where
  | opCanWrite (offset len : Nat)
  | opWrite (offset : Nat) (buf : List Byte) (action : WriteAction)
  | opAppend (buf : List Byte)
  | opWriteAt (offset : Nat) (buf : List Byte)
  | opFreeze
  | opFreezeBlocks (start stop : Nat)
  | opReleaseBlock (idx : List Nat)
  | opReleaseAll
  | opCollect (start stop : Nat)
  | opStats

/-- the state after one public operation (`can_write`, `collect_pages` and
`stats` take `&self` or mutate nothing and leave the state unchanged) -/
def stepOp (s : CacheSlice) : Op → CacheSlice
  | .opCanWrite _ _ => s
  | .opWrite offset buf action => (s.write offset buf action).1
  | .opAppend buf => (s.append buf).1
  | .opWriteAt offset buf => (s.write_at offset buf).1
  | .opFreeze => s.freeze
  | .opFreezeBlocks a b => s.freeze_blocks a b
  | .opReleaseBlock idx => (s.release_block idx).1
  | .opReleaseAll => (s.release_all).1
  | .opCollect _ _ => s
  | .opStats => s

/-- the state reached from a freshly-constructed buffer by a sequence of
public operations -/
def runOps (cfg : WriteConfig) (ops : List Op) : CacheSlice :=
  ops.foldl stepOp (CacheSlice.new cfg)

/-- the C7 invariant: `len` never exceeds `chunk_size`, and `alloc_bytes` is
exactly `page_size` times the number of materialized page slots -/
def CacheSlice.Invariant (s : CacheSlice) : Prop :=
  s.len ≤ s.config.chunk_size ∧
    s.alloc_bytes = s.config.page_size * CacheSlice.countSome s.pages

/-! ## Spec-side state descriptions used by the round-trip proof -/

/-- pad a written prefix to a full zero-initialized page buffer -/
def padTo (ps : Nat) (l : List Byte) : List Byte := l ++ List.replicate (ps - l.length) 0

/-- the page that slot `i` of a freshly-appended buffer holding `data` must
contain: the `i`-th `ps`-sized window of `data`, zero-padded, still mutable;
`none` past the written length. -/
def mutPageAt (ps : Nat) (data : List Byte) (i : Nat) : Option Page :=
  if i * ps < data.length then some ⟨.Mutable (padTo ps ((data.drop (i * ps)).take ps))⟩
  else none

/-- the frozen counterpart of `mutPageAt` -/
def frzPageAt (ps : Nat) (data : List Byte) (i : Nat) : Option Page :=
  (mutPageAt ps data i).map Page.freeze

/-- number of materialized page slots belonging to block `b` -/
def countAllocInBlock (s : CacheSlice) (b : Nat) : Nat :=
  ((List.range s.pages_per_block).filter fun j =>
    (s.pages.getD (b * s.pages_per_block + j) none).isSome).length

/-- total number of page slots allocated by `CacheSlice::new` -/
def totalPages (cfg : WriteConfig) : Nat :=
  divCeil cfg.chunk_size cfg.block_size * divCeil cfg.block_size cfg.page_size

/-- a construction-legal configuration: positive page and block sizes and
`block_size % page_size == 0` (the constructor's assertion; zero sizes panic
in Rust). -/
structure ValidConfig (cfg : WriteConfig) : Prop where
  ps_pos : 0 < cfg.page_size
  bs_pos : 0 < cfg.block_size
  ps_dvd : cfg.page_size ∣ cfg.block_size

/-- the exact shape of a buffer obtained from `new` by successful appends of
`data`, all pages still mutable -/
structure GoodAppend (cfg : WriteConfig) (s : CacheSlice) (data : List Byte) : Prop where
  hconfig : s.config = cfg
  hlen : s.len = data.length
  hbound : data.length ≤ cfg.chunk_size
  hplen : s.pages.length = totalPages cfg
  hpages : ∀ i, s.pages.getD i none = mutPageAt cfg.page_size data i

/-- the frozen counterpart of `GoodAppend` -/
structure GoodFrozen (cfg : WriteConfig) (s : CacheSlice) (data : List Byte) : Prop where
  hconfig : s.config = cfg
  hlen : s.len = data.length
  hbound : data.length ≤ cfg.chunk_size
  hplen : s.pages.length = totalPages cfg
  hpages : ∀ i, s.pages.getD i none = frzPageAt cfg.page_size data i

/-! ## Generic list helpers -/

theorem getD_set_self {α : Type} (l : List α) (i : Nat) (a d : α) (h : i < l.length) :
    (l.set i a).getD i d = a := by
  induction l generalizing i with
  | nil => simp at h
  | cons x xs ih =>
    cases i with
    | zero => simp
    | succ n =>
      simp only [List.set, List.getD_cons_succ]
      exact ih n (by simpa using h)

theorem getD_set_other {α : Type} (l : List α) (i j : Nat) (a d : α) (h : i ≠ j) :
    (l.set i a).getD j d = l.getD j d := by
  induction l generalizing i j with
  | nil => simp
  | cons x xs ih =>
    cases i with
    | zero =>
      cases j with
      | zero => exact absurd rfl h
      | succ m => simp
    | succ n =>
      cases j with
      | zero => simp
      | succ m =>
        simp only [List.set, List.getD_cons_succ]
        exact ih n m (by omega)

theorem getD_map_opt {α β : Type} (f : Option α → Option β) (hf : f none = none) :
    ∀ (l : List (Option α)) (i : Nat), (l.map f).getD i none = f (l.getD i none)
  | [], i => by simp [hf]
  | x :: xs, 0 => by simp
  | x :: xs, i + 1 => by
    simp only [List.map, List.getD_cons_succ]
    exact getD_map_opt f hf xs i

theorem getD_replicate_self {α : Type} (d : α) : ∀ (n i : Nat), (List.replicate n d).getD i d = d
  | 0, _ => by simp
  | n + 1, 0 => by simp
  | n + 1, i + 1 => by
    simp only [List.replicate, List.getD_cons_succ]
    exact getD_replicate_self d n i

theorem getD_length_le {α : Type} (l : List α) (i : Nat) (d : α) (h : l.length ≤ i) :
    l.getD i d = d := by
  induction l generalizing i with
  | nil => simp
  | cons x xs ih =>
    cases i with
    | zero => simp at h
    | succ n =>
      simp only [List.getD_cons_succ]
      exact ih n (by simpa using h)

/-! ## Arithmetic helpers -/

theorem divCeil_mul_ge (n b : Nat) (hb : 0 < b) : n ≤ divCeil n b * b := by
  rcases Nat.eq_zero_or_pos n with h0 | h0
  · subst h0; exact Nat.zero_le _
  · have he : n + b - 1 = (n - 1) + b := by omega
    have hdc : divCeil n b = (n - 1) / b + 1 := by
      unfold divCeil; rw [he, Nat.add_div_right _ hb]
    have hlt : n - 1 < ((n - 1) / b + 1) * b :=
      (Nat.div_lt_iff_lt_mul hb).mp (Nat.lt_succ_self ((n - 1) / b))
    rw [hdc]
    omega

theorem divCeil_dvd_eq (bs ps : Nat) (hps : 0 < ps) (h : ps ∣ bs) : divCeil bs ps = bs / ps := by
  obtain ⟨k, hk⟩ := h
  subst hk
  unfold divCeil
  rw [Nat.mul_div_cancel_left _ hps]
  have he : ps * k + ps - 1 = ps * k + (ps - 1) := by omega
  rw [he, Nat.mul_add_div hps, Nat.div_eq_of_lt (by omega), Nat.add_zero]

theorem flat_formula (bs ps d : Nat) (hps : 0 < ps) (h : ps ∣ bs) :
    d / bs * (bs / ps) + d % bs / ps = d / ps := by
  obtain ⟨k, hk⟩ := h
  subst hk
  rw [Nat.mul_div_cancel_left _ hps]
  conv_rhs => rw [← Nat.div_add_mod d (ps * k)]
  rw [Nat.mul_assoc] at *
  rw [show ps * (k * (d / (ps * k))) + d % (ps * k) = ps * (k * (d / (ps * k))) + d % (ps * k) from rfl,
    Nat.mul_add_div hps]
  ring

theorem chunk_le_totalPages_mul (cfg : WriteConfig) (hv : ValidConfig cfg) :
    cfg.chunk_size ≤ totalPages cfg * cfg.page_size := by
  unfold totalPages
  rw [divCeil_dvd_eq _ _ hv.ps_pos hv.ps_dvd, Nat.mul_assoc,
    Nat.div_mul_cancel hv.ps_dvd]
  exact divCeil_mul_ge _ _ hv.bs_pos

/-! ## Counting materialized slots -/

theorem countSome_nil : CacheSlice.countSome [] = 0 := rfl

theorem countSome_cons (o : Option Page) (l : List (Option Page)) :
    CacheSlice.countSome (o :: l) = (if o.isSome then 1 else 0) + CacheSlice.countSome l := by
  cases o <;> simp [CacheSlice.countSome, List.filter_cons, Nat.add_comm]

theorem countSome_set_none (l : List (Option Page)) (i : Nat)
    (h : (l.getD i none).isSome = true) :
    CacheSlice.countSome l = CacheSlice.countSome (l.set i none) + 1 := by
  induction l generalizing i with
  | nil => simp at h
  | cons x xs ih =>
    cases i with
    | zero =>
      cases x with
      | none => simp at h
      | some p => simp [List.set, countSome_cons, Nat.add_comm]
    | succ n =>
      simp only [List.getD_cons_succ] at h
      simp only [List.set, countSome_cons]
      rw [ih n h]
      omega

theorem countSome_set_some (l : List (Option Page)) (i : Nat) (p : Page)
    (h : (l.getD i none).isSome = true) :
    CacheSlice.countSome (l.set i (some p)) = CacheSlice.countSome l := by
  induction l generalizing i with
  | nil => simp at h
  | cons x xs ih =>
    cases i with
    | zero =>
      cases x with
      | none => simp at h
      | some q => simp [List.set, countSome_cons]
    | succ n =>
      simp only [List.getD_cons_succ] at h
      simp only [List.set, countSome_cons]
      rw [ih n h]

theorem countSome_set_fresh (l : List (Option Page)) (i : Nat) (p : Page)
    (hlt : i < l.length) (h : l.getD i none = none) :
    CacheSlice.countSome (l.set i (some p)) = CacheSlice.countSome l + 1 := by
  induction l generalizing i with
  | nil => simp at hlt
  | cons x xs ih =>
    cases i with
    | zero =>
      simp only [List.getD_cons_zero] at h
      subst h
      simp [List.set, countSome_cons, Nat.add_comm]
    | succ n =>
      simp only [List.getD_cons_succ] at h
      simp only [List.set, countSome_cons]
      rw [ih n (by simpa using hlt) h]
      omega

theorem countSome_map_optmap (f : Page → Page) (l : List (Option Page)) :
    CacheSlice.countSome (l.map (Option.map f)) = CacheSlice.countSome l := by
  induction l with
  | nil => rfl
  | cons x xs ih =>
    cases x <;> simp only [List.map, countSome_cons, Option.map, Option.isSome] <;> rw [ih]

theorem countSome_map_none (l : List (Option Page)) :
    CacheSlice.countSome (l.map fun _ => (none : Option Page)) = 0 := by
  induction l with
  | nil => rfl
  | cons x xs ih => simpa [countSome_cons] using ih

theorem countSome_replicate_none (n : Nat) :
    CacheSlice.countSome (List.replicate n none) = 0 := by
  induction n with
  | zero => rfl
  | succ m ih => simpa [List.replicate, countSome_cons] using ih

theorem countSome_mapIdxGo (f : Nat → Option Page → Option Page)
    (hf : ∀ i o, ((f i o).isSome) = o.isSome) :
    ∀ (l : List (Option Page)) (i0 : Nat),
      CacheSlice.countSome (CacheSlice.mapIdxGo f i0 l) = CacheSlice.countSome l
  | [], _ => rfl
  | x :: xs, i0 => by
    simp only [CacheSlice.mapIdxGo, countSome_cons, hf]
    rw [countSome_mapIdxGo f hf xs (i0 + 1)]

theorem getD_mapIdxGo_isSome (f : Nat → Option Page → Option Page)
    (hf : ∀ i o, ((f i o).isSome) = o.isSome) :
    ∀ (l : List (Option Page)) (i0 j : Nat),
      ((CacheSlice.mapIdxGo f i0 l).getD j none).isSome = (l.getD j none).isSome
  | [], _, _ => by simp [CacheSlice.mapIdxGo]
  | x :: xs, i0, 0 => by simp [CacheSlice.mapIdxGo, hf]
  | x :: xs, i0, j + 1 => by
    simp only [CacheSlice.mapIdxGo, List.getD_cons_succ]
    exact getD_mapIdxGo_isSome f hf xs (i0 + 1) j

/-! ## Frame facts about the basic operations -/

theorem ensure_frame (s : CacheSlice) (flat ps : Nat) :
    (s.ensure_page_mut_by_flat flat ps).config = s.config ∧
      (s.ensure_page_mut_by_flat flat ps).len = s.len ∧
      (s.ensure_page_mut_by_flat flat ps).pages.length = s.pages.length := by
  unfold CacheSlice.ensure_page_mut_by_flat
  split
  · split <;> simp
  · simp

/-- the `alloc_bytes` accounting part of the C7 invariant -/
def AllocInv (s : CacheSlice) : Prop :=
  s.alloc_bytes = s.config.page_size * CacheSlice.countSome s.pages

theorem ensure_allocInv (s : CacheSlice) (flat : Nat) (h : AllocInv s) :
    AllocInv (s.ensure_page_mut_by_flat flat s.config.page_size) := by
  unfold CacheSlice.ensure_page_mut_by_flat
  split
  · next hlt =>
    split
    · next hnone =>
      unfold AllocInv at *
      simp only
      rw [countSome_set_fresh _ _ _ hlt hnone, h, Nat.mul_add, Nat.mul_one]
    · exact h
  · exact h

theorem appendLoop_inv (fuel : Nat) : ∀ (s : CacheSlice) (rest : List Byte),
    (s.appendLoop rest fuel).1.config = s.config ∧
      (s.appendLoop rest fuel).1.len ≤ s.len + rest.length ∧
      (AllocInv s → AllocInv (s.appendLoop rest fuel).1) := by
  induction fuel with
  | zero =>
    intro s rest
    unfold CacheSlice.appendLoop
    split
    · exact ⟨rfl, Nat.le_add_right _ _, fun h => h⟩
    · exact ⟨rfl, Nat.le_add_right _ _, fun h => h⟩
  | succ fuel' ih =>
    intro s rest
    by_cases h0 : rest.length = 0
    · unfold CacheSlice.appendLoop
      rw [if_pos h0]
      exact ⟨rfl, Nat.le_add_right _ _, fun h => h⟩
    · unfold CacheSlice.appendLoop
      rw [if_neg h0]
      simp only
      obtain ⟨hc1, hl1, hlen1⟩ := ensure_frame s s.next_write_slot_flat.1 s.config.page_size
      set s1 := s.ensure_page_mut_by_flat s.next_write_slot_flat.1 s.config.page_size with hs1
      rcases hpage : s1.pages.getD s.next_write_slot_flat.1 none with _ | page
      · simp only [hpage]
        exact ⟨hc1, by omega, fun h => ensure_allocInv s _ h⟩
      · simp only [hpage]
        split
        · next buf hdata =>
          exact ⟨hc1, by show s1.len ≤ s.len + rest.length; omega, fun h => ensure_allocInv s _ h⟩
        · next buf hdata =>
          set read := min (s.config.page_size - s.next_write_slot_flat.2) rest.length with hrd
          by_cases hread : read = 0
          · rw [if_pos hread]
            exact ⟨hc1, by show s1.len ≤ s.len + rest.length; omega, fun h => ensure_allocInv s _ h⟩
          · rw [if_neg hread]
            set pg : Option Page := some ⟨.Mutable (buf.take s.next_write_slot_flat.2 ++ rest.take read ++ buf.drop (s.next_write_slot_flat.2 + read))⟩ with hpg
            set s2 : CacheSlice := ⟨s1.config, s1.len + read, s1.alloc_bytes, s1.pages.set s.next_write_slot_flat.1 pg⟩ with hs2
            obtain ⟨ihc, ihl, iha⟩ := ih s2 (rest.drop read)
            have hc2 : s2.config = s.config := hc1
            have hlen2 : s2.len = s1.len + read := rfl
            refine ⟨by rw [ihc]; exact hc2, ?_, ?_⟩
            · have hr : read ≤ rest.length := by rw [hrd]; omega
              have hd : (rest.drop read).length = rest.length - read := by simp
              omega
            · intro h
              apply iha
              have h1 : AllocInv s1 := ensure_allocInv s _ h
              unfold AllocInv at h1 ⊢
              show s1.alloc_bytes = s1.config.page_size * CacheSlice.countSome (s1.pages.set s.next_write_slot_flat.1 pg)
              rw [hpg, countSome_set_some _ _ _ (by rw [hpage]; rfl)]
              exact h1

theorem append_inv (s : CacheSlice) (buf : List Byte) :
    (s.append buf).1.config = s.config ∧
      ((s.len + buf.length ≤ s.config.chunk_size → (s.append buf).1.len ≤ s.config.chunk_size) ∧
        (¬ s.len + buf.length ≤ s.config.chunk_size → (s.append buf).1.len = s.len)) ∧
      (AllocInv s → AllocInv (s.append buf).1) := by
  unfold CacheSlice.append
  split
  · obtain ⟨hc, hl, ha⟩ := appendLoop_inv buf.length s buf
    exact ⟨hc, ⟨fun h => by omega, fun h => by omega⟩, ha⟩
  · exact ⟨rfl, ⟨fun h => by omega, fun _ => rfl⟩, fun h => h⟩

theorem writeAtLoop_inv : ∀ (spans : List (Nat × Nat × Nat)) (s : CacheSlice)
    (data : List Byte) (pos : Nat),
    (s.writeAtLoop spans data pos).1.config = s.config ∧
      (s.writeAtLoop spans data pos).1.len = s.len ∧
      (AllocInv s → AllocInv (s.writeAtLoop spans data pos).1)
  | [], s, data, pos => ⟨rfl, rfl, fun h => h⟩
  | (flat, off, l) :: rest, s, data, pos => by
    unfold CacheSlice.writeAtLoop
    simp only
    obtain ⟨hc1, hl1, hlen1⟩ := ensure_frame s flat s.config.page_size
    set s1 := s.ensure_page_mut_by_flat flat s.config.page_size with hs1
    rcases hpage : s1.pages.getD flat none with _ | page
    · simp only [hpage]
      exact ⟨hc1, hl1, fun h => ensure_allocInv s _ h⟩
    · simp only [hpage]
      split
      · next buf hdata =>
        exact ⟨hc1, hl1, fun h => ensure_allocInv s _ h⟩
      · next buf hdata =>
        by_cases hpos : pos + l ≤ data.length
        · rw [if_pos hpos]
          set pg : Option Page := some ⟨.Mutable (buf.take off ++ (data.drop pos).take l ++ buf.drop (off + l))⟩ with hpg
          set s2 : CacheSlice := ⟨s1.config, s1.len, s1.alloc_bytes, s1.pages.set flat pg⟩ with hs2
          obtain ⟨ihc, ihl, iha⟩ := writeAtLoop_inv rest s2 data (pos + l)
          refine ⟨by rw [ihc]; exact hc1, by rw [ihl]; exact hl1, ?_⟩
          intro h
          apply iha
          have h1 : AllocInv s1 := ensure_allocInv s _ h
          unfold AllocInv at h1 ⊢
          show s1.alloc_bytes = s1.config.page_size * CacheSlice.countSome (s1.pages.set flat pg)
          rw [hpg, countSome_set_some _ _ _ (by rw [hpage]; rfl)]
          exact h1
        · rw [if_neg hpos]
          exact ⟨hc1, hl1, fun h => ensure_allocInv s _ h⟩


theorem clearSlots_spec (ps : Nat) : ∀ (idxs : List Nat) (pages : List (Option Page)) (acc : Nat),
    ∃ k, CacheSlice.countSome pages = CacheSlice.countSome (CacheSlice.clearSlots ps pages idxs acc).1 + k ∧
      (CacheSlice.clearSlots ps pages idxs acc).2 = acc + ps * k ∧
      (CacheSlice.clearSlots ps pages idxs acc).1.length = pages.length
  | [], pages, acc => ⟨0, by simp [CacheSlice.clearSlots]⟩
  | i :: rest, pages, acc => by
    unfold CacheSlice.clearSlots
    split
    · next p hp =>
      obtain ⟨k, hcount, hfreed, hlen⟩ := clearSlots_spec ps rest (pages.set i none) (acc + ps)
      refine ⟨k + 1, ?_, ?_, by simpa using hlen⟩
      · rw [countSome_set_none pages i (by rw [hp]; rfl)] at *
        omega
      · rw [hfreed, Nat.mul_add, Nat.mul_one]
        omega
    · next hp =>
      obtain ⟨k, hcount, hfreed, hlen⟩ := clearSlots_spec ps rest pages acc
      exact ⟨k, hcount, hfreed, hlen⟩

theorem clearSlots_getD (ps : Nat) : ∀ (idxs : List Nat) (pages : List (Option Page))
    (acc j : Nat),
    (CacheSlice.clearSlots ps pages idxs acc).1.getD j none =
      if j ∈ idxs then none else pages.getD j none
  | [], pages, acc, j => by simp [CacheSlice.clearSlots]
  | i :: rest, pages, acc, j => by
    unfold CacheSlice.clearSlots
    split
    · next p hp =>
      rw [clearSlots_getD ps rest (pages.set i none) (acc + ps) j]
      by_cases hjr : j ∈ rest
      · rw [if_pos hjr, if_pos (List.mem_cons_of_mem i hjr)]
      · rw [if_neg hjr]
        by_cases hji : j = i
        · subst hji
          rw [if_pos (List.mem_cons_self j rest)]
          have hin : j < pages.length := by
            by_contra hge
            rw [getD_length_le _ _ _ (by omega)] at hp
            exact Option.noConfusion hp
          exact getD_set_self _ _ _ _ hin
        · rw [if_neg (by simp [hji, hjr])]
          exact getD_set_other _ _ _ _ _ (fun he => hji he.symm)
    · next hp =>
      rw [clearSlots_getD ps rest pages acc j]
      by_cases hjr : j ∈ rest
      · rw [if_pos hjr, if_pos (List.mem_cons_of_mem i hjr)]
      · rw [if_neg hjr]
        by_cases hji : j = i
        · subst hji
          rw [if_pos (List.mem_cons_self j rest), hp]
        · rw [if_neg (by simp [hji, hjr])]

theorem clearSlots_freed_nodup (ps : Nat) : ∀ (idxs : List Nat) (pages : List (Option Page))
    (acc : Nat), idxs.Nodup →
    (CacheSlice.clearSlots ps pages idxs acc).2 =
      acc + ps * ((idxs.filter fun i => (pages.getD i none).isSome).length)
  | [], pages, acc, _ => by simp [CacheSlice.clearSlots]
  | i :: rest, pages, acc, hnd => by
    have hni : i ∉ rest := (List.nodup_cons.mp hnd).1
    have hndr : rest.Nodup := (List.nodup_cons.mp hnd).2
    unfold CacheSlice.clearSlots
    split
    · next p hp =>
      rw [clearSlots_freed_nodup ps rest (pages.set i none) (acc + ps) hndr]
      have hfe : (rest.filter fun j => ((pages.set i none).getD j none).isSome)
          = rest.filter fun j => (pages.getD j none).isSome := by
        apply List.filter_congr
        intro j hj
        rw [getD_set_other _ _ _ _ _ (fun he => by subst he; exact hni hj)]
      rw [hfe, List.filter_cons_of_pos (by rw [hp]; rfl)]
      simp only [List.length_cons]
      ring
    · next hp =>
      rw [clearSlots_freed_nodup ps rest pages acc hndr]
      rw [List.filter_cons_of_neg (by rw [hp]; simp)]

theorem release_block_inv (s : CacheSlice) (idx : List Nat) (h : AllocInv s) :
    AllocInv (s.release_block idx).1 := by
  unfold CacheSlice.release_block AllocInv at *
  obtain ⟨k, hcount, hfreed, hlen⟩ :=
    clearSlots_spec s.config.page_size
      (idx.flatMap fun b => (List.range s.pages_per_block).map fun j => b * s.pages_per_block + j)
      s.pages 0
  simp only
  rw [hfreed, h, hcount, Nat.zero_add, Nat.mul_add]
  omega

theorem freeze_frame (s : CacheSlice) :
    (s.freeze).config = s.config ∧ (s.freeze).len = s.len ∧
      (s.freeze).alloc_bytes = s.alloc_bytes ∧
      CacheSlice.countSome (s.freeze).pages = CacheSlice.countSome s.pages ∧
      (s.freeze).pages.length = s.pages.length := by
  unfold CacheSlice.freeze
  exact ⟨rfl, rfl, rfl, countSome_map_optmap _ _, by simp⟩

theorem freeze_blocks_frame (s : CacheSlice) (start stop : Nat) :
    (s.freeze_blocks start stop).config = s.config ∧
      (s.freeze_blocks start stop).len = s.len ∧
      (s.freeze_blocks start stop).alloc_bytes = s.alloc_bytes ∧
      CacheSlice.countSome (s.freeze_blocks start stop).pages = CacheSlice.countSome s.pages := by
  unfold CacheSlice.freeze_blocks
  refine ⟨rfl, rfl, rfl, ?_⟩
  apply countSome_mapIdxGo
  intro i o
  split
  · cases o <;> rfl
  · rfl

theorem write_at_inv (s : CacheSlice) (offset : Nat) (buf : List Byte) :
    (s.write_at offset buf).1.config = s.config ∧
      (s.write_at offset buf).1.len = s.len ∧
      (AllocInv s → AllocInv (s.write_at offset buf).1) :=
  writeAtLoop_inv _ s buf 0

theorem stepOp_inv (s : CacheSlice) (op : Op) (h : s.Invariant) : (stepOp s op).Invariant := by
  obtain ⟨hlen, halloc⟩ := h
  have ha : AllocInv s := halloc
  have happend : ∀ buf : List Byte, ((s.append buf).1).Invariant := by
    intro buf
    obtain ⟨hc, ⟨hl1, hl2⟩, hai⟩ := append_inv s buf
    constructor
    · rw [hc]
      by_cases hg : s.len + buf.length ≤ s.config.chunk_size
      · exact hl1 hg
      · rw [hl2 hg]; exact hlen
    · have := hai ha
      unfold AllocInv at this
      rw [this, hc]
  have hwat : ∀ (offset : Nat) (buf : List Byte), ((s.write_at offset buf).1).Invariant := by
    intro offset buf
    obtain ⟨hc, hl, hai⟩ := write_at_inv s offset buf
    constructor
    · rw [hc, hl]; exact hlen
    · have := hai ha
      unfold AllocInv at this
      rw [this, hc]
  cases op with
  | opCanWrite o l => exact ⟨hlen, halloc⟩
  | opWrite offset buf action =>
    cases action with
    | Append =>
      simp only [stepOp, CacheSlice.write]
      exact happend buf
    | Overlap =>
      simp only [stepOp, CacheSlice.write]
      exact hwat offset buf
  | opAppend buf =>
    simp only [stepOp]
    exact happend buf
  | opWriteAt offset buf =>
    simp only [stepOp]
    exact hwat offset buf
  | opFreeze =>
    obtain ⟨hc, hl, hab, hcs, _⟩ := freeze_frame s
    simp only [stepOp]
    exact ⟨by rw [hc, hl]; exact hlen, by rw [hab, hc, hcs]; exact halloc⟩
  | opFreezeBlocks a b =>
    obtain ⟨hc, hl, hab, hcs⟩ := freeze_blocks_frame s a b
    simp only [stepOp]
    exact ⟨by rw [hc, hl]; exact hlen, by rw [hab, hc, hcs]; exact halloc⟩
  | opReleaseBlock idx =>
    have hai := release_block_inv s idx ha
    constructor
    · show (s.release_block idx).1.len ≤ (s.release_block idx).1.config.chunk_size
      unfold CacheSlice.release_block
      exact hlen
    · exact hai
  | opReleaseAll =>
    constructor
    · show s.len ≤ s.config.chunk_size
      exact hlen
    · show (0 : Nat) = s.config.page_size * CacheSlice.countSome (s.pages.map fun _ => none)
      rw [countSome_map_none, Nat.mul_zero]
  | opCollect a b => exact ⟨hlen, halloc⟩
  | opStats => exact ⟨hlen, halloc⟩

/-! ## The append/collect round trip -/

theorem padTo_length (ps : Nat) (l : List Byte) (h : l.length ≤ ps) :
    (padTo ps l).length = ps := by
  unfold padTo
  rw [List.length_append, List.length_replicate]
  omega

theorem padTo_write (ps within read : Nat) (a ext : List Byte)
    (ha : a.length = within) (hwr : within + read ≤ ps) (hext : ext.length = read) :
    (padTo ps a).take within ++ ext ++ (padTo ps a).drop (within + read) =
      padTo ps (a ++ ext) := by
  unfold padTo
  have h1 : (a ++ List.replicate (ps - a.length) 0).take within = a := by
    rw [← ha]
    exact List.take_left a _
  have h2 : (a ++ List.replicate (ps - a.length) 0).drop (within + read) =
      List.replicate (ps - within - read) 0 := by
    have he : within + read = a.length + read := by omega
    rw [he, ← List.drop_drop, List.drop_left, List.drop_replicate]
    congr 1
    omega
  have hcount : ps - (a.length + ext.length) = ps - within - read := by omega
  rw [h1, h2, List.length_append, hcount, List.append_assoc]

theorem mutPageAt_append_other (ps : Nat) (hps : 0 < ps) (data ext : List Byte) (i : Nat)
    (hi : i ≠ data.length / ps)
    (hext : data.length + ext.length ≤ data.length / ps * ps + ps) :
    mutPageAt ps (data ++ ext) i = mutPageAt ps data i := by
  have hfle : data.length / ps * ps ≤ data.length := Nat.div_mul_le_self _ _
  rcases Nat.lt_or_ge i (data.length / ps) with hlt | hge
  · have h1 : (i + 1) * ps ≤ data.length / ps * ps :=
      Nat.mul_le_mul_right ps (Nat.succ_le_of_lt hlt)
    have h2 : i * ps + ps ≤ data.length := by
      have he : (i + 1) * ps = i * ps + ps := by ring
      omega
    unfold mutPageAt
    rw [if_pos (by rw [List.length_append]; omega), if_pos (by omega)]
    have hdrop : (data ++ ext).drop (i * ps) = data.drop (i * ps) ++ ext :=
      List.drop_append_of_le_length (by omega)
    rw [hdrop, List.take_append_of_le_length (by rw [List.length_drop]; omega)]
  · have hgt : (data.length / ps + 1) * ps ≤ i * ps :=
      Nat.mul_le_mul_right ps (by omega)
    have h1 : data.length / ps * ps + ps ≤ i * ps := by
      have he : (data.length / ps + 1) * ps = data.length / ps * ps + ps := by ring
      omega
    unfold mutPageAt
    rw [if_neg (by rw [List.length_append]; omega), if_neg (by omega)]

theorem slot_eq (cfg : WriteConfig) (hv : ValidConfig cfg) (s : CacheSlice)
    (hc : s.config = cfg) :
    s.next_write_slot_flat = (s.len / cfg.page_size, s.len % cfg.page_size) := by
  unfold CacheSlice.next_write_slot_flat CacheSlice.pages_per_block
  rw [hc]
  have h1 := flat_formula cfg.block_size cfg.page_size s.len hv.ps_pos hv.ps_dvd
  have h2 : divCeil cfg.block_size cfg.page_size = cfg.block_size / cfg.page_size :=
    divCeil_dvd_eq _ _ hv.ps_pos hv.ps_dvd
  simp only [h2]
  rw [Prod.ext_iff]
  exact ⟨h1, Nat.mod_mod_of_dvd _ hv.ps_dvd⟩

theorem flat_lt_totalPages (cfg : WriteConfig) (hv : ValidConfig cfg) (d : Nat)
    (hd : d < cfg.chunk_size) : d / cfg.page_size < totalPages cfg := by
  have h1 : cfg.chunk_size ≤ totalPages cfg * cfg.page_size := chunk_le_totalPages_mul cfg hv
  have h2 : d / cfg.page_size * cfg.page_size ≤ d := Nat.div_mul_le_self d cfg.page_size
  by_contra hge
  push_neg at hge
  have h3 : totalPages cfg * cfg.page_size ≤ d / cfg.page_size * cfg.page_size :=
    Nat.mul_le_mul_right _ hge
  omega

theorem new_good (cfg : WriteConfig) : GoodAppend cfg (CacheSlice.new cfg) [] := by
  refine ⟨rfl, rfl, Nat.zero_le _, by simp [CacheSlice.new, totalPages], ?_⟩
  intro i
  show (List.replicate _ (none : Option Page)).getD i none = mutPageAt cfg.page_size [] i
  rw [getD_replicate_self]
  unfold mutPageAt
  rw [if_neg (by simp)]

theorem ensure_good (cfg : WriteConfig) (hv : ValidConfig cfg) (s : CacheSlice)
    (data : List Byte) (hg : GoodAppend cfg s data) (hlt : data.length < cfg.chunk_size) :
    (s.ensure_page_mut_by_flat (data.length / cfg.page_size) cfg.page_size).config = cfg ∧
      (s.ensure_page_mut_by_flat (data.length / cfg.page_size) cfg.page_size).len =
        data.length ∧
      (s.ensure_page_mut_by_flat (data.length / cfg.page_size) cfg.page_size).pages.length =
        totalPages cfg ∧
      (s.ensure_page_mut_by_flat (data.length / cfg.page_size) cfg.page_size).pages.getD
          (data.length / cfg.page_size) none =
        some ⟨.Mutable (padTo cfg.page_size
          ((data.drop (data.length / cfg.page_size * cfg.page_size)).take cfg.page_size))⟩ ∧
      ∀ i, i ≠ data.length / cfg.page_size →
        (s.ensure_page_mut_by_flat (data.length / cfg.page_size) cfg.page_size).pages.getD
          i none = mutPageAt cfg.page_size data i := by
  have hflt : data.length / cfg.page_size < totalPages cfg := flat_lt_totalPages cfg hv _ hlt
  have hco : data.length / cfg.page_size * cfg.page_size = data.length - data.length % cfg.page_size := by
    have hdm := Nat.div_add_mod data.length cfg.page_size
    have hcm : data.length / cfg.page_size * cfg.page_size =
        cfg.page_size * (data.length / cfg.page_size) := Nat.mul_comm _ _
    omega
  have hmlt : data.length % cfg.page_size < cfg.page_size := Nat.mod_lt _ hv.ps_pos
  have hmle : data.length % cfg.page_size ≤ data.length := Nat.mod_le _ _
  unfold CacheSlice.ensure_page_mut_by_flat
  rw [if_pos (by rw [hg.hplen]; exact hflt)]
  rw [hg.hpages]
  by_cases hz : data.length % cfg.page_size = 0
  · -- page boundary: the slot is still empty and gets materialized
    have hfe : data.length / cfg.page_size * cfg.page_size = data.length := by omega
    have hnone : mutPageAt cfg.page_size data (data.length / cfg.page_size) = none := by
      unfold mutPageAt
      rw [if_neg (by omega)]
    rw [hnone]
    simp only
    refine ⟨hg.hconfig, hg.hlen, by rw [List.length_set, hg.hplen], ?_, ?_⟩
    · rw [getD_set_self _ _ _ _ (by rw [hg.hplen]; exact hflt)]
      unfold Page.new padTo
      rw [hfe, List.drop_length, List.take_nil, List.nil_append]
      simp
    · intro i hi
      rw [getD_set_other _ _ _ _ _ (fun he => hi he.symm), hg.hpages]
  · -- mid-page: the slot already holds the partially-written page
    have hsome : mutPageAt cfg.page_size data (data.length / cfg.page_size) =
        some ⟨.Mutable (padTo cfg.page_size
          ((data.drop (data.length / cfg.page_size * cfg.page_size)).take cfg.page_size))⟩ := by
      unfold mutPageAt
      rw [if_pos (by omega)]
    rw [hsome]
    simp only
    exact ⟨hg.hconfig, hg.hlen, hg.hplen, by rw [hg.hpages, hsome], fun i hi => hg.hpages i⟩

theorem appendLoop_good (cfg : WriteConfig) (hv : ValidConfig cfg) :
    ∀ (fuel : Nat) (s : CacheSlice) (data rest : List Byte),
      GoodAppend cfg s data → rest.length ≤ fuel →
      data.length + rest.length ≤ cfg.chunk_size →
      (s.appendLoop rest fuel).2 = true ∧
        GoodAppend cfg (s.appendLoop rest fuel).1 (data ++ rest) := by
  intro fuel
  induction fuel with
  | zero =>
    intro s data rest hg hf hb
    have h0 : rest.length = 0 := by omega
    have he : rest = [] := List.length_eq_zero.mp h0
    subst he
    unfold CacheSlice.appendLoop
    rw [if_pos (by simp)]
    rw [List.append_nil]
    exact ⟨rfl, hg⟩
  | succ fuel' ih =>
    intro s data rest hg hf hb
    by_cases h0 : rest.length = 0
    · have he : rest = [] := List.length_eq_zero.mp h0
      subst he
      unfold CacheSlice.appendLoop
      rw [if_pos (by simp)]
      rw [List.append_nil]
      exact ⟨rfl, hg⟩
    · have hlt : data.length < cfg.chunk_size := by omega
      have hps := hv.ps_pos
      have hmlt : data.length % cfg.page_size < cfg.page_size := Nat.mod_lt _ hps
      have hmle : data.length % cfg.page_size ≤ data.length := Nat.mod_le _ _
      have hco : data.length / cfg.page_size * cfg.page_size =
          data.length - data.length % cfg.page_size := by
        have hdm := Nat.div_add_mod data.length cfg.page_size
        have hcm : data.length / cfg.page_size * cfg.page_size =
            cfg.page_size * (data.length / cfg.page_size) := Nat.mul_comm _ _
        omega
      obtain ⟨hc1, hl1, hpl1, hflat, hother⟩ := ensure_good cfg hv s data hg hlt
      have hslot : s.next_write_slot_flat =
          (data.length / cfg.page_size, data.length % cfg.page_size) := by
        rw [slot_eq cfg hv s hg.hconfig, hg.hlen]
      unfold CacheSlice.appendLoop
      rw [if_neg h0]
      simp only [hslot, hg.hconfig, hflat]
      set s1 := s.ensure_page_mut_by_flat (data.length / cfg.page_size) cfg.page_size with hs1
      set A := (data.drop (data.length / cfg.page_size * cfg.page_size)).take cfg.page_size
        with hA
      set read := min (cfg.page_size - data.length % cfg.page_size) rest.length with hrd
      have hAlen : A.length = data.length % cfg.page_size := by
        rw [hA, List.length_take, List.length_drop]
        omega
      have hread : ¬ read = 0 := by rw [hrd]; omega
      have hrle : read ≤ rest.length := by rw [hrd]; omega
      have hrpos : 0 < read := by omega
      have hrps : data.length % cfg.page_size + read ≤ cfg.page_size := by rw [hrd]; omega
      rw [if_neg hread]
      have hnew : (padTo cfg.page_size A).take (data.length % cfg.page_size) ++
          rest.take read ++
          (padTo cfg.page_size A).drop (data.length % cfg.page_size + read) =
          padTo cfg.page_size (A ++ rest.take read) :=
        padTo_write cfg.page_size (data.length % cfg.page_size) read A (rest.take read)
          hAlen hrps (by rw [List.length_take]; omega)
      rw [hnew]
      have hdropA : (data ++ rest.take read).drop
          (data.length / cfg.page_size * cfg.page_size) = A ++ rest.take read := by
        rw [List.drop_append_of_le_length (by omega)]
        congr 1
        rw [hA]
        exact (List.take_of_length_le (by rw [List.length_drop]; omega)).symm
      have htakeA : ((data ++ rest.take read).drop
          (data.length / cfg.page_size * cfg.page_size)).take cfg.page_size =
          A ++ rest.take read := by
        rw [hdropA]
        exact List.take_of_length_le (by rw [List.length_append, hAlen, List.length_take]; omega)
      have hpagesflat : mutPageAt cfg.page_size (data ++ rest.take read)
          (data.length / cfg.page_size) =
          some ⟨.Mutable (padTo cfg.page_size (A ++ rest.take read))⟩ := by
        unfold mutPageAt
        rw [if_pos (by rw [List.length_append, List.length_take]; omega), htakeA]
      set s2 : CacheSlice := ⟨s1.config, s1.len + read, s1.alloc_bytes,
        s1.pages.set (data.length / cfg.page_size)
          (some ⟨.Mutable (padTo cfg.page_size (A ++ rest.take read))⟩)⟩ with hs2
      have hg2 : GoodAppend cfg s2 (data ++ rest.take read) := by
        refine ⟨hc1, ?_, ?_, ?_, ?_⟩
        · show s1.len + read = (data ++ rest.take read).length
          rw [hl1, List.length_append, List.length_take]
          omega
        · rw [List.length_append, List.length_take]
          omega
        · show (s1.pages.set _ _).length = totalPages cfg
          rw [List.length_set]
          exact hpl1
        · intro i
          show (s1.pages.set (data.length / cfg.page_size)
            (some ⟨.Mutable (padTo cfg.page_size (A ++ rest.take read))⟩)).getD i none =
            mutPageAt cfg.page_size (data ++ rest.take read) i
          by_cases hi : i = data.length / cfg.page_size
          · rw [hi, getD_set_self _ _ _ _ (by rw [hpl1]; exact flat_lt_totalPages cfg hv _ hlt),
              hpagesflat]
          · rw [getD_set_other _ _ _ _ _ (fun he => hi he.symm), hother i hi]
            exact (mutPageAt_append_other cfg.page_size hps data (rest.take read) i hi
              (by rw [List.length_take]; omega)).symm
      obtain ⟨ht, hgd⟩ := ih s2 (data ++ rest.take read) (rest.drop read) hg2
        (by rw [List.length_drop]; omega)
        (by rw [List.length_append, List.length_take, List.length_drop]; omega)
      rw [List.append_assoc, List.take_append_drop] at hgd
      exact ⟨ht, hgd⟩

theorem append_good (cfg : WriteConfig) (hv : ValidConfig cfg) (s : CacheSlice)
    (data buf : List Byte) (hg : GoodAppend cfg s data)
    (hb : data.length + buf.length ≤ cfg.chunk_size) :
    (s.append buf).2 = true ∧ GoodAppend cfg (s.append buf).1 (data ++ buf) := by
  unfold CacheSlice.append
  rw [hg.hconfig, hg.hlen, if_pos hb]
  exact appendLoop_good cfg hv buf.length s data buf hg (Nat.le_refl _) hb

theorem appendAll_good (cfg : WriteConfig) (hv : ValidConfig cfg) :
    ∀ (bufs : List (List Byte)) (s : CacheSlice) (data : List Byte),
      GoodAppend cfg s data → data.length + bufs.flatten.length ≤ cfg.chunk_size →
      (s.appendAll bufs).2 = true ∧
        GoodAppend cfg (s.appendAll bufs).1 (data ++ bufs.flatten)
  | [], s, data, hg, hb => by
    unfold CacheSlice.appendAll
    rw [List.flatten_nil, List.append_nil]
    exact ⟨rfl, hg⟩
  | b :: rest, s, data, hg, hb => by
    rw [List.flatten_cons, List.length_append] at hb
    have hb1 : data.length + b.length ≤ cfg.chunk_size := by omega
    obtain ⟨ht, hg1⟩ := append_good cfg hv s data b hg hb1
    unfold CacheSlice.appendAll
    simp only [ht, if_true]
    have hb2 : (data ++ b).length + rest.flatten.length ≤ cfg.chunk_size := by
      rw [List.length_append]
      omega
    obtain ⟨ht2, hg2⟩ := appendAll_good cfg hv rest (s.append b).1 (data ++ b) hg1 hb2
    rw [List.append_assoc] at hg2
    rw [List.flatten_cons]
    exact ⟨ht2, hg2⟩

theorem freeze_good (cfg : WriteConfig) (s : CacheSlice) (data : List Byte)
    (hg : GoodAppend cfg s data) : GoodFrozen cfg s.freeze data := by
  refine ⟨hg.hconfig, hg.hlen, hg.hbound, ?_, ?_⟩
  · show (s.pages.map (Option.map Page.freeze)).length = totalPages cfg
    rw [List.length_map]
    exact hg.hplen
  · intro i
    show (s.pages.map (Option.map Page.freeze)).getD i none = frzPageAt cfg.page_size data i
    rw [getD_map_opt _ rfl, hg.hpages]
    rfl

theorem collectBlockGo_zero (s : CacheSlice) (ps flatBase : Nat) (pis : List Nat) :
    s.collectBlockGo ps flatBase pis 0 = .ok ([], 0) := by
  cases pis <;> simp [CacheSlice.collectBlockGo]

theorem collectGo_zero (s : CacheSlice) (ps ppb : Nat) : ∀ (blocks : List Nat),
    s.collectGo ps ppb blocks 0 = .ok (blocks.map fun b => (b, []))
  | [] => by simp [CacheSlice.collectGo]
  | b :: rest => by
    simp [CacheSlice.collectGo, collectBlockGo_zero, collectGo_zero s ps ppb rest]

theorem collectBlockGo_spec (cfg : WriteConfig) (hv : ValidConfig cfg) (s : CacheSlice)
    (data : List Byte) (hg : GoodFrozen cfg s data) :
    ∀ (m flatBase j : Nat),
      ∃ chunks, s.collectBlockGo cfg.page_size flatBase (List.range' j m)
          (data.length - (flatBase + j) * cfg.page_size) =
          .ok (chunks, data.length - (flatBase + j + m) * cfg.page_size) ∧
        chunks.flatten =
          (data.drop ((flatBase + j) * cfg.page_size)).take (m * cfg.page_size) := by
  intro m
  induction m with
  | zero =>
    intro flatBase j
    refine ⟨[], ?_, ?_⟩
    · show Except.ok ([], data.length - (flatBase + j) * cfg.page_size) = _
      rw [Nat.add_zero]
    · rw [Nat.zero_mul, List.take_zero, List.flatten_nil]
  | succ k ih =>
    intro flatBase j
    have hps := hv.ps_pos
    rw [List.range'_succ]
    by_cases hr : data.length - (flatBase + j) * cfg.page_size = 0
    · refine ⟨[], ?_, ?_⟩
      · unfold CacheSlice.collectBlockGo
        rw [if_pos hr, hr]
        have hz : data.length - (flatBase + j + (k + 1)) * cfg.page_size = 0 := by
          have hm : (flatBase + j) * cfg.page_size ≤ (flatBase + j + (k + 1)) * cfg.page_size :=
            Nat.mul_le_mul_right _ (by omega)
          omega
        rw [hz]
      · rw [List.flatten_nil, List.drop_eq_nil_of_le (by omega), List.take_nil]
    · have hlt : (flatBase + j) * cfg.page_size < data.length := by omega
      have hpage : s.pages.getD (flatBase + j) none =
          some ⟨.Frozen (padTo cfg.page_size
            ((data.drop ((flatBase + j) * cfg.page_size)).take cfg.page_size))⟩ := by
        rw [hg.hpages]
        unfold frzPageAt mutPageAt
        rw [if_pos hlt]
        rfl
      unfold CacheSlice.collectBlockGo
      rw [if_neg hr]
      simp only [hpage, Page.bytes]
      have hmul : (flatBase + (j + 1)) * cfg.page_size =
          (flatBase + j) * cfg.page_size + cfg.page_size := by ring
      have hrtk : data.length - (flatBase + j) * cfg.page_size -
          min (data.length - (flatBase + j) * cfg.page_size) cfg.page_size =
          data.length - (flatBase + (j + 1)) * cfg.page_size := by
        rw [hmul]
        omega
      rw [hrtk]
      obtain ⟨chunks', hc', hf'⟩ := ih flatBase (j + 1)
      rw [hc']
      refine ⟨(padTo cfg.page_size
        ((data.drop ((flatBase + j) * cfg.page_size)).take cfg.page_size)).take
          (min (data.length - (flatBase + j) * cfg.page_size) cfg.page_size) :: chunks',
        ?_, ?_⟩
      · have harr : flatBase + (j + 1) + k = flatBase + j + (k + 1) := by omega
        rw [harr]
      · rw [List.flatten_cons]
        set l := data.drop ((flatBase + j) * cfg.page_size) with hl
        have hll : l.length = data.length - (flatBase + j) * cfg.page_size := by
          rw [hl, List.length_drop]
        set r := data.length - (flatBase + j) * cfg.page_size with hrr
        have hAlen : (l.take cfg.page_size).length = min r cfg.page_size := by
          rw [List.length_take, hll]
          omega
        have htake1 : (padTo cfg.page_size (l.take cfg.page_size)).take (min r cfg.page_size) =
            l.take (min r cfg.page_size) := by
          unfold padTo
          rw [List.take_append_of_le_length (by omega), List.take_take]
          congr 1
          omega
        have htake2 : l.take (min r cfg.page_size) = l.take cfg.page_size := by
          rcases Nat.le_total cfg.page_size r with hle | hle
          · rw [Nat.min_eq_right hle]
          · rw [Nat.min_eq_left hle, List.take_of_length_le (by omega),
              List.take_of_length_le (by omega)]
        have hdd : l.drop cfg.page_size = data.drop ((flatBase + (j + 1)) * cfg.page_size) := by
          rw [hl, List.drop_drop, hmul]
        rw [htake1, htake2, hf', ← hdd]
        have hadd : (k + 1) * cfg.page_size = cfg.page_size + k * cfg.page_size := by ring
        rw [hadd, List.take_add]

theorem collectGo_spec (cfg : WriteConfig) (hv : ValidConfig cfg) (s : CacheSlice)
    (data : List Byte) (hg : GoodFrozen cfg s data) :
    ∀ (e b : Nat),
      ∃ out, s.collectGo cfg.page_size (divCeil cfg.block_size cfg.page_size)
          (List.range' b e)
          (data.length - b * divCeil cfg.block_size cfg.page_size * cfg.page_size) =
          .ok out ∧
        flattenCollect out =
          (data.drop (b * divCeil cfg.block_size cfg.page_size * cfg.page_size)).take
            (e * divCeil cfg.block_size cfg.page_size * cfg.page_size) := by
  intro e
  induction e with
  | zero =>
    intro b
    refine ⟨[], rfl, ?_⟩
    rw [Nat.zero_mul, Nat.zero_mul, List.take_zero]
    rfl
  | succ k ih =>
    intro b
    set ppb := divCeil cfg.block_size cfg.page_size with hppb
    rw [List.range'_succ]
    unfold CacheSlice.collectGo
    obtain ⟨chunks, hc, hf⟩ := collectBlockGo_spec cfg hv s data hg ppb (b * ppb) 0
    rw [Nat.add_zero] at hc hf
    have hmul : (b * ppb + ppb) * cfg.page_size = (b + 1) * ppb * cfg.page_size := by ring
    rw [hmul] at hc
    rw [List.range_eq_range']
    simp only [hc]
    obtain ⟨tail, hct, hft⟩ := ih (b + 1)
    simp only [hct]
    refine ⟨(b, chunks) :: tail, rfl, ?_⟩
    have hfc : flattenCollect ((b, chunks) :: tail) = chunks.flatten ++ flattenCollect tail := by
      unfold flattenCollect
      rw [List.map_cons, List.flatten_cons]
    rw [hfc, hf, hft]
    have hdd : (data.drop (b * ppb * cfg.page_size)).drop (ppb * cfg.page_size) =
        data.drop ((b + 1) * ppb * cfg.page_size) := by
      rw [List.drop_drop]
      congr 1
      ring
    rw [← hdd, ← List.take_add]
    congr 1
    ring

theorem collect_roundtrip (cfg : WriteConfig) (hv : ValidConfig cfg) (s : CacheSlice)
    (data : List Byte) (hg : GoodFrozen cfg s data) :
    s.collectConcat 0 (divCeil data.length cfg.block_size) = .ok data := by
  have hbs : divCeil cfg.block_size cfg.page_size * cfg.page_size = cfg.block_size := by
    rw [divCeil_dvd_eq _ _ hv.ps_pos hv.ps_dvd]
    exact Nat.div_mul_cancel hv.ps_dvd
  unfold CacheSlice.collectConcat CacheSlice.collect_pages CacheSlice.pages_per_block
  rw [hg.hconfig, hg.hlen]
  simp only [Nat.zero_mul, Nat.sub_zero]
  by_cases hn : data.length = 0
  · rw [if_pos hn]
    have hd : data = [] := List.length_eq_zero.mp hn
    subst hd
    rfl
  · rw [if_neg hn]
    obtain ⟨out, hc, hf⟩ := collectGo_spec cfg hv s data hg (divCeil data.length cfg.block_size) 0
    simp only [Nat.zero_mul, Nat.sub_zero, List.drop_zero] at hc hf
    rw [hc]
    show Except.ok (flattenCollect out) = Except.ok data
    rw [hf]
    congr 1
    apply List.take_of_length_le
    rw [Nat.mul_assoc, hbs]
    exact divCeil_mul_ge _ _ hv.bs_pos

/-! ## Claim theorems -/

/-- C1: for every sequence of `append` calls on a freshly-constructed buffer
whose total byte count is at most `chunk_size`, every append succeeds and
`freeze()` followed by `collect_pages(0, ceil(n / block_size))`, concatenating
the returned chunks in block order, reproduces the appended bytes exactly. -/
theorem append_freeze_collect_roundtrip (cfg : WriteConfig) (hv : ValidConfig cfg)
    (bufs : List (List Byte)) (hsum : bufs.flatten.length ≤ cfg.chunk_size) :
    ((CacheSlice.new cfg).appendAll bufs).2 = true ∧
      (((CacheSlice.new cfg).appendAll bufs).1.freeze).collectConcat 0
        (divCeil bufs.flatten.length cfg.block_size) = .ok bufs.flatten := by
  obtain ⟨ht, hgd⟩ :=
    appendAll_good cfg hv bufs (CacheSlice.new cfg) [] (new_good cfg) (by simpa using hsum)
  rw [List.nil_append] at hgd
  exact ⟨ht, collect_roundtrip cfg hv _ _ (freeze_good cfg _ _ hgd)⟩

theorem append_freeze_collect_roundtrip_witness :
    (0 < (4 : Nat) ∧ 0 < (8 : Nat) ∧ (4 : Nat) ∣ 8) ∧
      ([[1, 2, 3, 4, 5], [6, 7]] : List (List Byte)).flatten.length ≤ 16 ∧
      ((CacheSlice.new ⟨16, 8, 4⟩).appendAll [[1, 2, 3, 4, 5], [6, 7]]).2 = true ∧
      (((CacheSlice.new ⟨16, 8, 4⟩).appendAll [[1, 2, 3, 4, 5], [6, 7]]).1.freeze).collectConcat 0
        (divCeil ([[1, 2, 3, 4, 5], [6, 7]] : List (List Byte)).flatten.length 8) =
        .ok [1, 2, 3, 4, 5, 6, 7] := by
  refine ⟨⟨by decide, by decide, by decide⟩, by decide, ?_⟩
  have h := append_freeze_collect_roundtrip ⟨16, 8, 4⟩ ⟨by decide, by decide, by decide⟩
    [[1, 2, 3, 4, 5], [6, 7]] (by decide)
  exact h

/-- C4 counterexample: with `chunk_size = 16, block_size = 8, page_size = 4`,
appending 2 bytes (fewer than one page), freezing, and collecting over a range
extending past `len` emits a chunk of length 2 for the partially-written page
slot — the written prefix only, truncated — not a chunk of length `page_size`
with zero fill as the claim states. -/
theorem collect_partial_page_counterexample :
    (((CacheSlice.new ⟨16, 8, 4⟩).append [1, 2]).1.freeze).collect_pages 0 2 =
        .ok [(0, [[1, 2]]), (1, [])] ∧
      ([1, 2] : List Byte).length ≠ (⟨16, 8, 4⟩ : WriteConfig).page_size := by
  exact ⟨by decide, by decide⟩

/-- C4 (amended): after appending fewer bytes than one full page and freezing,
`collect_pages` over a range extending past `len` emits, for the
partially-written page, exactly the written prefix — a chunk truncated to the
written byte count, with no zero padding — and empty chunk lists for every
later block in the range. -/
theorem collect_partial_page_truncates (cfg : WriteConfig) (hv : ValidConfig cfg)
    (buf : List Byte) (h0 : 0 < buf.length) (hlt : buf.length < cfg.page_size)
    (hcs : buf.length ≤ cfg.chunk_size) (e : Nat) (he : 1 ≤ e) :
    (((CacheSlice.new cfg).append buf).1.freeze).collect_pages 0 e =
      .ok ((0, [buf]) :: (List.range' 1 (e - 1)).map fun b => (b, [])) := by
  have hb2 : ([] : List Byte).length + buf.length ≤ cfg.chunk_size := by simpa using hcs
  obtain ⟨ht, hga⟩ := append_good cfg hv (CacheSlice.new cfg) [] buf (new_good cfg) hb2
  rw [List.nil_append] at hga
  have hg := freeze_good cfg _ _ hga
  unfold CacheSlice.collect_pages CacheSlice.pages_per_block
  rw [hg.hconfig, hg.hlen]
  simp only [Nat.zero_mul, Nat.sub_zero]
  rw [if_neg (by omega)]
  have he2 : e = (e - 1) + 1 := by omega
  conv_lhs => rw [he2]
  rw [List.range'_succ]
  unfold CacheSlice.collectGo
  have hppb : 1 ≤ divCeil cfg.block_size cfg.page_size := by
    rw [divCeil_dvd_eq _ _ hv.ps_pos hv.ps_dvd]
    exact (Nat.one_le_div_iff hv.ps_pos).mpr (Nat.le_of_dvd hv.bs_pos hv.ps_dvd)
  have hrange : List.range (divCeil cfg.block_size cfg.page_size) =
      0 :: List.range' 1 (divCeil cfg.block_size cfg.page_size - 1) := by
    rw [List.range_eq_range']
    have hx : divCeil cfg.block_size cfg.page_size =
        (divCeil cfg.block_size cfg.page_size - 1) + 1 := by omega
    conv_lhs => rw [hx]
    rw [List.range'_succ]
  rw [hrange]
  unfold CacheSlice.collectBlockGo
  rw [if_neg (by omega)]
  have hpage0 : (((CacheSlice.new cfg).append buf).1.freeze).pages.getD
      (0 * divCeil cfg.block_size cfg.page_size + 0) none =
      some ⟨.Frozen (padTo cfg.page_size buf)⟩ := by
    rw [hg.hpages]
    unfold frzPageAt mutPageAt
    rw [if_pos (by simpa using h0)]
    simp only [Nat.zero_mul, Nat.mul_zero, Nat.add_zero, List.drop_zero]
    rw [List.take_of_length_le (by omega)]
    rfl
  simp only [hpage0, Page.bytes]
  have htk : min buf.length cfg.page_size = buf.length := by omega
  rw [htk]
  have htake : (padTo cfg.page_size buf).take buf.length = buf := by
    unfold padTo
    exact List.take_left buf _
  rw [htake, Nat.sub_self, collectBlockGo_zero]
  simp [collectGo_zero]


theorem collect_partial_page_truncates_witness :
    (0 < (4 : Nat) ∧ 0 < (8 : Nat) ∧ (4 : Nat) ∣ 8) ∧
      0 < ([1, 2] : List Byte).length ∧ ([1, 2] : List Byte).length < 4 ∧
      ([1, 2] : List Byte).length ≤ 16 ∧ (1 : Nat) ≤ 2 ∧
      (((CacheSlice.new ⟨16, 8, 4⟩).append [1, 2]).1.freeze).collect_pages 0 2 =
        .ok ((0, [[1, 2]]) :: (List.range' 1 (2 - 1)).map fun b => (b, [])) := by
  refine ⟨⟨by decide, by decide, by decide⟩, by decide, by decide, by decide, by decide, ?_⟩
  exact collect_partial_page_truncates ⟨16, 8, 4⟩ ⟨by decide, by decide, by decide⟩ [1, 2]
    (by decide) (by decide) (by decide) 2 (by decide)

/-- C6: for a block index `b` within the page table, `release_block([b])`
returns `page_size` times the number of previously-materialized pages of
block `b`, decrements `alloc_bytes` by exactly that amount (with saturating
subtraction, so it never underflows), and leaves every page slot of block `b`
empty (`page(b, p)` is `none` for every in-block `p`). -/
theorem release_block_frees_and_clears (s : CacheSlice) (b : Nat)
    (hb : (b + 1) * s.pages_per_block ≤ s.pages.length) :
    (s.release_block [b]).2 = s.config.page_size * countAllocInBlock s b ∧
      (s.release_block [b]).1.alloc_bytes =
        s.alloc_bytes - s.config.page_size * countAllocInBlock s b ∧
      ∀ p, p < s.pages_per_block → (s.release_block [b]).1.page b p = none := by
  have hslots : ([b].flatMap fun bb =>
      (List.range s.pages_per_block).map fun j => bb * s.pages_per_block + j) =
      (List.range s.pages_per_block).map fun j => b * s.pages_per_block + j := by
    simp
  have hnd : ((List.range s.pages_per_block).map
      fun j => b * s.pages_per_block + j).Nodup := by
    refine (List.nodup_range _).map ?_
    intro x y hxy
    simp only at hxy
    omega
  have hfreed : (CacheSlice.clearSlots s.config.page_size s.pages
      ((List.range s.pages_per_block).map fun j => b * s.pages_per_block + j) 0).2 =
      s.config.page_size * countAllocInBlock s b := by
    rw [clearSlots_freed_nodup _ _ _ _ hnd, Nat.zero_add]
    congr 1
    unfold countAllocInBlock
    rw [List.map_filter, List.length_map]
    congr 1
  obtain ⟨k, hcount, hfr, hlen⟩ := clearSlots_spec s.config.page_size
    ((List.range s.pages_per_block).map fun j => b * s.pages_per_block + j) s.pages 0
  refine ⟨?_, ?_, ?_⟩
  · show (CacheSlice.clearSlots s.config.page_size s.pages _ 0).2 = _
    rw [hslots, hfreed]
  · show s.alloc_bytes - (CacheSlice.clearSlots s.config.page_size s.pages _ 0).2 = _
    rw [hslots, hfreed]
  · intro p hp
    unfold CacheSlice.page CacheSlice.flat_index
    have hppb : ((s.release_block [b]).1).pages_per_block = s.pages_per_block := rfl
    rw [hppb]
    have hplen : ((s.release_block [b]).1).pages.length = s.pages.length := by
      show (CacheSlice.clearSlots s.config.page_size s.pages _ 0).1.length = _
      rw [hslots, hlen]
    have hflt2 : b * s.pages_per_block + p < s.pages.length := by
      have h1 : (b + 1) * s.pages_per_block = b * s.pages_per_block + s.pages_per_block := by
        ring
      omega
    rw [if_pos (by rw [hplen]; exact hflt2)]
    show (CacheSlice.clearSlots s.config.page_size s.pages _ 0).1.getD _ none = none
    rw [hslots, clearSlots_getD]
    have hmem : b * s.pages_per_block + p ∈
        (List.range s.pages_per_block).map fun j => b * s.pages_per_block + j :=
      List.mem_map.mpr ⟨p, List.mem_range.mpr hp, rfl⟩
    rw [if_pos hmem]

theorem release_block_frees_and_clears_witness :
    (0 + 1) * (((CacheSlice.new ⟨16, 8, 4⟩).append [1, 2]).1).pages_per_block ≤
        (((CacheSlice.new ⟨16, 8, 4⟩).append [1, 2]).1).pages.length ∧
      ((((CacheSlice.new ⟨16, 8, 4⟩).append [1, 2]).1).release_block [0]).2 =
        (((CacheSlice.new ⟨16, 8, 4⟩).append [1, 2]).1).config.page_size *
          countAllocInBlock (((CacheSlice.new ⟨16, 8, 4⟩).append [1, 2]).1) 0 := by
  refine ⟨by decide, ?_⟩
  exact (release_block_frees_and_clears (((CacheSlice.new ⟨16, 8, 4⟩).append [1, 2]).1) 0
    (by decide)).1

/-- C2 counterexample: in a buffer state with `len = u64::MAX`, the saturating
addition in `can_write_at` masks the out-of-range end offset
`offset + length = 2^64 + 1 > len`, so `can_write` answers `Overlap` where the
claim demands `Rejected` (`offset != len` and `offset + length > len`). -/
theorem can_write_saturation_counterexample :
    (CacheSlice.mk ⟨u64MAX, 8, 4⟩ u64MAX 0 []).can_write (u64MAX - 1) 3 =
        some WriteAction.Overlap ∧
      u64MAX - 1 ≠ (CacheSlice.mk ⟨u64MAX, 8, 4⟩ u64MAX 0 []).len ∧
      ¬ (u64MAX - 1) + 3 ≤ (CacheSlice.mk ⟨u64MAX, 8, 4⟩ u64MAX 0 []).len := by
  refine ⟨by decide, by decide, by decide⟩

/-- C2 (amended): for every buffer state whose `len` is below `u64::MAX` (so
u64 saturation cannot mask an out-of-range end offset), `can_write` returns
`Append` exactly when `offset = len`, `Overlap` exactly when
`offset + length <= len` (and `offset != len`), and `Rejected` (`none`) in
every other case; in particular `can_write(len, n)` is `Append` and
`can_write(len+1, n)` is `Rejected` for `n > 0`. -/
theorem can_write_classification (s : CacheSlice) (offset length : Nat)
    (hlen : s.len < u64MAX) :
    (s.can_write offset length = some WriteAction.Append ↔ offset = s.len) ∧
      (offset ≠ s.len →
        (s.can_write offset length = some WriteAction.Overlap ↔ offset + length ≤ s.len)) ∧
      (offset ≠ s.len → ¬ offset + length ≤ s.len → s.can_write offset length = none) ∧
      s.can_write s.len length = some WriteAction.Append ∧
      (0 < length → s.can_write (s.len + 1) length = none) := by
  have hmain : ∀ o l : Nat, s.can_write o l =
      if o = s.len then some WriteAction.Append
      else if o + l ≤ s.len then some WriteAction.Overlap
      else none := by
    intro o l
    unfold CacheSlice.can_write CacheSlice.can_append CacheSlice.can_write_at satAdd64
    by_cases ho : s.len = o
    · simp [ho]
    · have hbeq : (s.len == o) = false := by simp [ho]
      have hne : ¬ o = s.len := fun h => ho h.symm
      rw [hbeq]
      by_cases hol : o + l ≤ s.len
      · have hmin : min (o + l) u64MAX ≤ s.len := by
          unfold u64MAX at *
          omega
        simp [hmin, hol, hne]
      · have hmin : ¬ min (o + l) u64MAX ≤ s.len := by
          unfold u64MAX at *
          omega
        simp [hmin, hol, hne]
  refine ⟨?_, ?_, ?_, ?_, ?_⟩
  · rw [hmain]
    constructor
    · intro h
      by_cases ho : offset = s.len
      · exact ho
      · rw [if_neg ho] at h
        by_cases hol : offset + length ≤ s.len
        · rw [if_pos hol] at h
          exact absurd h (by simp)
        · rw [if_neg hol] at h
          exact absurd h (by simp)
    · intro h
      rw [if_pos h]
  · intro hne
    rw [hmain, if_neg hne]
    constructor
    · intro h
      by_cases hol : offset + length ≤ s.len
      · exact hol
      · rw [if_neg hol] at h
        exact absurd h (by simp)
    · intro h
      rw [if_pos h]
  · intro hne hol
    rw [hmain, if_neg hne, if_neg hol]
  · rw [hmain, if_pos rfl]
  · intro hl
    rw [hmain, if_neg (by omega), if_neg (by omega)]

theorem can_write_classification_witness :
    (CacheSlice.new ⟨16, 8, 4⟩).len < u64MAX ∧
      (((CacheSlice.new ⟨16, 8, 4⟩).can_write 0 3 = some WriteAction.Append ↔
          0 = (CacheSlice.new ⟨16, 8, 4⟩).len) ∧
        (0 ≠ (CacheSlice.new ⟨16, 8, 4⟩).len →
          ((CacheSlice.new ⟨16, 8, 4⟩).can_write 0 3 = some WriteAction.Overlap ↔
            0 + 3 ≤ (CacheSlice.new ⟨16, 8, 4⟩).len)) ∧
        (0 ≠ (CacheSlice.new ⟨16, 8, 4⟩).len → ¬ 0 + 3 ≤ (CacheSlice.new ⟨16, 8, 4⟩).len →
          (CacheSlice.new ⟨16, 8, 4⟩).can_write 0 3 = none) ∧
        (CacheSlice.new ⟨16, 8, 4⟩).can_write (CacheSlice.new ⟨16, 8, 4⟩).len 3 =
          some WriteAction.Append ∧
        (0 < 3 → (CacheSlice.new ⟨16, 8, 4⟩).can_write ((CacheSlice.new ⟨16, 8, 4⟩).len + 1) 3 =
          none)) :=
  ⟨by decide, can_write_classification (CacheSlice.new ⟨16, 8, 4⟩) 0 3 (by decide)⟩

/-- C3: `Page::write_slice` fails (with the frozen-write error) exactly on a
Frozen page, and `Page::bytes` fails (with the read-before-freeze error)
exactly on a Mutable page; in the legal states, `write_slice` returns the
writable window over `[start, stop)` of the mutable buffer and `bytes`
returns the frozen snapshot. -/
theorem page_state_error_discipline (p : Page) (start stop : Nat) :
    (p.isFrozen = true →
      p.write_slice start stop = .error "attempt to write to frozen page") ∧
      (p.isFrozen = false →
        p.write_slice start stop = .ok ((p.rawBuf.take stop).drop start)) ∧
      (p.isFrozen = false →
        p.bytes = .error
          "collect_pages called on mutable page (would read uninitialized bytes)") ∧
      (p.isFrozen = true → p.bytes = .ok p.rawBuf) := by
  rcases p with ⟨buf | buf⟩ <;>
    simp [Page.isFrozen, Page.write_slice, Page.bytes, Page.rawBuf]

theorem page_state_error_discipline_witness :
    (Page.mk (.Frozen [7])).isFrozen = true ∧
      (Page.mk (.Mutable [7, 8])).isFrozen = false ∧
      (Page.mk (.Frozen [7])).write_slice 0 1 = .error "attempt to write to frozen page" ∧
      (Page.mk (.Mutable [7, 8])).write_slice 0 1 = .ok [7] ∧
      (Page.mk (.Mutable [7, 8])).bytes = .error
        "collect_pages called on mutable page (would read uninitialized bytes)" ∧
      (Page.mk (.Frozen [7])).bytes = .ok [7] :=
  ⟨by decide, by decide,
    (page_state_error_discipline ⟨.Frozen [7]⟩ 0 1).1 (by decide),
    (page_state_error_discipline ⟨.Mutable [7, 8]⟩ 0 1).2.1 (by decide),
    (page_state_error_discipline ⟨.Mutable [7, 8]⟩ 0 1).2.2.1 (by decide),
    (page_state_error_discipline ⟨.Frozen [7]⟩ 0 1).2.2.2 (by decide)⟩

/-- C5: `append` fails when `len + buf.len() > chunk_size` (the overflow guard
runs before any mutation), and on this failure the returned state is exactly
the input state: `len`, `alloc_bytes` and the page table are untouched. -/
theorem append_overflow_no_mutation (s : CacheSlice) (buf : List Byte)
    (h : s.config.chunk_size < s.len + buf.length) :
    s.append buf = (s, false) := by
  unfold CacheSlice.append
  rw [if_neg (by omega)]

theorem append_overflow_no_mutation_witness :
    (CacheSlice.new ⟨8, 4, 2⟩).config.chunk_size <
        (CacheSlice.new ⟨8, 4, 2⟩).len + ([1, 2, 3, 4, 5, 6, 7, 8, 9] : List Byte).length ∧
      (CacheSlice.new ⟨8, 4, 2⟩).append [1, 2, 3, 4, 5, 6, 7, 8, 9] =
        (CacheSlice.new ⟨8, 4, 2⟩, false) :=
  ⟨by decide,
    append_overflow_no_mutation (CacheSlice.new ⟨8, 4, 2⟩) [1, 2, 3, 4, 5, 6, 7, 8, 9] (by decide)⟩

/-- C7: every state reachable from a freshly-constructed buffer through any
sequence of public operations satisfies `len <= chunk_size` and
`alloc_bytes = page_size * (number of materialized page slots)`. -/
theorem reachable_state_invariant (cfg : WriteConfig) (ops : List Op) :
    (runOps cfg ops).Invariant := by
  suffices h : ∀ (s : CacheSlice), s.Invariant → (ops.foldl stepOp s).Invariant by
    apply h
    constructor
    · exact Nat.zero_le _
    · show (0 : Nat) = cfg.page_size * CacheSlice.countSome (List.replicate _ none)
      rw [countSome_replicate_none, Nat.mul_zero]
  induction ops with
  | nil => exact fun s hs => hs
  | cons op rest ih => exact fun s hs => ih _ (stepOp_inv s op hs)

/-- C9 (spec-modelled): a read at or below the threshold issues exactly one
byte-range fetch for `[offset, offset + buf.len())`; above the threshold the
store fetches the whole block object once; both strategies place the same
window of the block's bytes in the caller's buffer. -/
theorem read_range_strategy (cfg : BlockStoreConfig) (backend : Nat × Nat → List Byte)
    (key : Nat × Nat) (offset bufLen : Nat) :
    (bufLen ≤ cfg.threshold_bytes →
      (read_range cfg backend key offset bufLen).1 = [.getRange key offset bufLen]) ∧
      (cfg.threshold_bytes < bufLen →
        (read_range cfg backend key offset bufLen).1 = [.getObject key]) ∧
      (read_range cfg backend key offset bufLen).2 = ((backend key).drop offset).take bufLen := by
  unfold read_range
  refine ⟨fun h => by rw [if_pos h], fun h => by rw [if_neg (by omega)], ?_⟩
  split <;> rfl

theorem read_range_strategy_witness :
    ((2 : Nat) ≤ BlockStoreConfig.threshold_bytes ⟨64, 1, 5⟩ ∧
      (read_range ⟨64, 1, 5⟩ (fun _ => [1, 2, 3, 4]) (0, 0) 1 2).1 =
        [.getRange (0, 0) 1 2]) ∧
      (BlockStoreConfig.threshold_bytes ⟨64, 1, 5⟩ < 20 ∧
        (read_range ⟨64, 1, 5⟩ (fun _ => [1, 2, 3, 4]) (0, 0) 1 20).1 = [.getObject (0, 0)]) :=
  ⟨⟨by decide, (read_range_strategy ⟨64, 1, 5⟩ (fun _ => [1, 2, 3, 4]) (0, 0) 1 2).1 (by decide)⟩,
    ⟨by decide, (read_range_strategy ⟨64, 1, 5⟩ (fun _ => [1, 2, 3, 4]) (0, 0) 1 20).2.1
      (by decide)⟩⟩

/-- C10: `freeze`, `freeze_blocks`, `release_block` and `release_all` leave
`len` unchanged; `freeze` and `freeze_blocks` additionally leave `alloc_bytes`
and the set of materialized page slots unchanged.  The range hypotheses mark
the executions on which the Rust slice indexing does not panic. -/
theorem freeze_release_frame (s : CacheSlice) (start stop : Nat) (idx : List Nat)
    (hfb : stop * s.pages_per_block ≤ s.pages.length)
    (hrb : ∀ b ∈ idx, (b + 1) * s.pages_per_block ≤ s.pages.length) :
    s.freeze.len = s.len ∧
      (s.freeze_blocks start stop).len = s.len ∧
      (s.release_block idx).1.len = s.len ∧
      (s.release_all).1.len = s.len ∧
      s.freeze.alloc_bytes = s.alloc_bytes ∧
      (s.freeze_blocks start stop).alloc_bytes = s.alloc_bytes ∧
      (∀ i, (s.freeze.pages.getD i none).isSome = (s.pages.getD i none).isSome) ∧
      (∀ i, ((s.freeze_blocks start stop).pages.getD i none).isSome =
        (s.pages.getD i none).isSome) := by
  refine ⟨rfl, rfl, rfl, rfl, rfl, rfl, ?_, ?_⟩
  · intro i
    show ((s.pages.map (Option.map Page.freeze)).getD i none).isSome = _
    rw [getD_map_opt (Option.map Page.freeze) rfl]
    cases s.pages.getD i none <;> rfl
  · intro i
    show ((CacheSlice.mapIdxGo _ 0 s.pages).getD i none).isSome = _
    apply getD_mapIdxGo_isSome
    intro j o
    split
    · cases o <;> rfl
    · rfl

theorem freeze_release_frame_witness :
    (1 * (CacheSlice.new ⟨16, 8, 4⟩).pages_per_block ≤ (CacheSlice.new ⟨16, 8, 4⟩).pages.length ∧
      ∀ b ∈ [0], (b + 1) * (CacheSlice.new ⟨16, 8, 4⟩).pages_per_block ≤
        (CacheSlice.new ⟨16, 8, 4⟩).pages.length) ∧
      (CacheSlice.new ⟨16, 8, 4⟩).freeze.len = (CacheSlice.new ⟨16, 8, 4⟩).len ∧
      ((CacheSlice.new ⟨16, 8, 4⟩).release_block [0]).1.len = (CacheSlice.new ⟨16, 8, 4⟩).len :=
  ⟨⟨by decide, by decide⟩,
    (freeze_release_frame (CacheSlice.new ⟨16, 8, 4⟩) 0 1 [0] (by decide) (by decide)).1,
    (freeze_release_frame (CacheSlice.new ⟨16, 8, 4⟩) 0 1 [0] (by decide) (by decide)).2.2.1⟩

end Slayerfs
